import Mathlib

/-!
Verification of the thingList build pipeline.

The repository consists of two Python scripts, `src/build_lists.py` and
`src/build_compact_lists_UNFINISHED.py`, which fetch YAML list files from a
content repository, parse an optional front-matter block, and emit generated
JavaScript bundles (a category map, a flattened index and a reverse lookup
map), respectively merge freshly fetched term clusters into a previously
generated cluster block.

This file gives a shallow embedding of those scripts.  Strings are modelled
as lists of characters (`Str`); the Python string primitives used by the
scripts (`startswith`, `split(sep, 2)`, `splitlines`, `strip`, `lower`,
slicing) are modelled by executable Lean functions with the same semantics
on the inputs that occur.  Library calls (`yaml.safe_load`, `requests.get`,
`slugify`) are modelled by explicit parameters or by faithful executable
models restricted to the behaviour the scripts rely on; each such model is
documented at its definition.
-/

set_option maxRecDepth 8000

/-- Decidable equality for `Except`, so concrete runs of the fallible
embedded functions can be evaluated by `decide`. -/
instance exceptDecEq {ε α : Type} [DecidableEq ε] [DecidableEq α] :
    DecidableEq (Except ε α) := fun x y =>
  match x, y with
  | .ok a, .ok b =>
    if h : a = b then isTrue (by rw [h]) else isFalse (fun hh => h (Except.ok.inj hh))
  | .error a, .error b =>
    if h : a = b then isTrue (by rw [h]) else isFalse (fun hh => h (Except.error.inj hh))
  | .ok _, .error _ => isFalse Except.noConfusion
  | .error _, .ok _ => isFalse Except.noConfusion

abbrev Str := List Char

/-- Remainder of `l` after the pattern `p`, when `p` is a prefix of `l`
(`none` otherwise).  Basis for the Python `startswith`/`in` tests. -/
def stripPre : Str → Str → Option Str
  | [], l => some l
  | _ :: _, [] => none
  | p :: ps, c :: cs => if p = c then stripPre ps cs else none

/-- Python `text.startswith(pat)`. -/
def beginsWith (pat l : Str) : Bool := (stripPre pat l).isSome

/-- Split `l` at the first occurrence of `sep`: `some (before, after)`,
or `none` when `sep` does not occur.  Scans left to right. -/
def splitFirst (sep : Str) : Str → Option (Str × Str)
  | [] => (stripPre sep []).map (fun r => ([], r))
  | c :: cs =>
    match stripPre sep (c :: cs) with
    | some r => some ([], r)
    | none => (splitFirst sep cs).map (fun p => (c :: p.1, p.2))

/-- Python `b in name` (substring containment). -/
def isSubstr (sep l : Str) : Bool := (splitFirst sep l).isSome

/-- Python `text.split(sep, 2)` for a non-empty separator: at most two
splits, scanning left to right, so the result has one, two or three parts. -/
def pySplit2 (sep l : Str) : List Str :=
  match splitFirst sep l with
  | none => [l]
  | some (a, b) =>
    match splitFirst sep b with
    | none => [a, b]
    | some (c, d) => [a, c, d]

/-- Split on a single character, keeping empty parts (Python `s.split(c)`). -/
def splitChar (sep : Char) : Str → List Str
  | [] => [[]]
  | c :: cs =>
    let r := splitChar sep cs
    if c = sep then [] :: r
    else
      match r with
      | h :: t => (c :: h) :: t
      | [] => [[c]]

/-- The characters Python `str.strip()` removes. -/
def isPyWs (c : Char) : Bool :=
  c = ' ' || c = '\t' || c = '\n' || c = '\x0b' || c = '\x0c' || c = '\r'

/-- Python `s.strip()`: whitespace removed from both ends. -/
def stripL (l : Str) : Str :=
  ((l.dropWhile isPyWs).reverse.dropWhile isPyWs).reverse

/-- Python `s.splitlines()` restricted to `\n` line endings (the only line
ending occurring in the fetched list files): splits on `\n` and, unlike
`split`, yields no empty final part for a trailing newline. -/
def pySplitLines (l : Str) : List Str :=
  if l.isEmpty then []
  else
    let parts := splitChar '\n' l
    if l.getLast? = some '\n' then parts.dropLast else parts

/-- The front-matter delimiter `'---'`. -/
def dashes : Str := "---".data

/-- A decoded metadata mapping (the result of a successful YAML decode of a
simple key-value block). -/
abbrev YamlMap := List (Str × Str)

/-- Outcome of `yaml.safe_load` on the front-matter block: the library call
can raise (`failure`), return `None` for an empty document (`empty`), or
return a mapping (`mapping`). -/
inductive YamlResult where
  | failure : YamlResult
  | empty : YamlResult
  | mapping : YamlMap → YamlResult
  deriving DecidableEq

/-- Embedding of `parse_front_matter_string` (src/build_lists.py:28-36),
parametrised by the YAML decoder `decode` standing for `yaml.safe_load`.
Mirrors the source line by line: if the text does not start with `'---'`,
return `({}, text)`; split on `'---'` with maxsplit 2; with fewer than three
parts return `({}, text)`; otherwise decode the middle part, where a raising
decode propagates (`.error`), a `None` result is replaced by `{}` by the
`or {}`, and a mapping is returned as is. -/
def parse_front_matter_string (decode : Str → YamlResult) (text : Str) :
    Except Unit (YamlMap × Str) :=
  if beginsWith dashes text = false then .ok ([], text)
  else
    match pySplit2 dashes text with
    | [_, fm, body] =>
      match decode fm with
      | .failure => .error ()
      | .empty => .ok ([], body)
      | .mapping m => .ok (m, body)
    | _ => .ok ([], text)

/-- Embedding of `parse_frontmatter` (src/build_compact_lists_UNFINISHED.py:
20-27).  Its body is token for token the body of `parse_front_matter_string`,
so the embedding is shared. -/
def parse_frontmatter (decode : Str → YamlResult) (text : Str) :
    Except Unit (YamlMap × Str) :=
  parse_front_matter_string decode text

/-- Key and value of a `key: value` line: split at the first colon, both
sides stripped. -/
def parseKVLine (ln : Str) : Str × Str :=
  match splitFirst [':'] ln with
  | some (k, v) => (stripL k, stripL v)
  | none => (stripL ln, [])

/-- Model of the library call `yaml.safe_load` on the simple one-level
`key: value` mappings that occur in the list files' front matter: an input
with no non-blank lines decodes to `None` (`empty`); an input whose non-blank
lines each contain a colon decodes to the corresponding mapping; anything
else raises (`failure`).  Only the behaviour on such simple documents is
relied upon by the theorems below. -/
def yamlSafeLoadSimple (s : Str) : YamlResult :=
  let lines := ((splitChar '\n' s).map stripL).filter (fun ln => !ln.isEmpty)
  if lines.isEmpty then .empty
  else if lines.all (fun ln => (splitFirst [':'] ln).isSome) then
    .mapping (lines.map parseKVLine)
  else .failure

/-- Counterexample to C3 as stated: parsing `"---\ntitle: X\n---\nbody"`
does not yield the body `"body"`; the split on `'---'` keeps the newline
that followed the closing delimiter, so the body is `"\nbody"`. -/
theorem c3_front_matter_title_counterexample :
    parse_front_matter_string yamlSafeLoadSimple ("---\ntitle: X\n---\nbody".data) ≠
        .ok ([("title".data, "X".data)], "body".data) ∧
    pySplit2 dashes ("---\ntitle: X\n---\nbody".data) =
        [[], "\ntitle: X\n".data, "\nbody".data] := by
  constructor
  · intro h
    have := Except.ok.inj h
    have := congrArg Prod.snd this
    simp only at this
    exact absurd (congrArg List.length this) (by decide)
  · decide

/-- C3 as amended: parsing the exact input text `"---\ntitle: X\n---\nbody"`
with the front-matter parser yields the metadata mapping `{title: "X"}` and
the body string `"\nbody"` (the newline after the closing delimiter stays at
the head of the body part produced by the split). -/
theorem c3_front_matter_title_example :
    parse_front_matter_string yamlSafeLoadSimple ("---\ntitle: X\n---\nbody".data) =
      .ok ([("title".data, "X".data)], "\nbody".data) := by
  decide

/-- C6: for every input text that does not start with `'---'`, the parser
returns empty metadata and the whole input as body; and for every text that
does start with `'---'` but splits into fewer than three parts, it likewise
returns empty metadata with the whole original text as body.  Holds for every
decoder. -/
theorem c6_missing_delimiter_fallback (decode : Str → YamlResult) (text : Str) :
    (beginsWith dashes text = false →
      parse_front_matter_string decode text = .ok ([], text)) ∧
    (beginsWith dashes text = true → (pySplit2 dashes text).length < 3 →
      parse_front_matter_string decode text = .ok ([], text)) := by
  constructor
  · intro h
    unfold parse_front_matter_string
    rw [h]
    rfl
  · intro h hlen
    unfold parse_front_matter_string
    rw [h]
    simp only [Bool.true_eq_false, if_false]
    rcases e : pySplit2 dashes text with _ | ⟨a, _ | ⟨b, _ | ⟨c, tl⟩⟩⟩ <;> simp_all
    rcases tl with _ | _ <;> simp_all

/-- Witness for C6 at concrete inputs: `"hello"` does not start with the
delimiter and parses to itself; `"---ab"` starts with the delimiter but has
only two parts and also parses to itself. -/
theorem c6_missing_delimiter_fallback_witness :
    parse_front_matter_string yamlSafeLoadSimple ("hello".data) =
        .ok ([], "hello".data) ∧
    parse_front_matter_string yamlSafeLoadSimple ("---ab".data) =
        .ok ([], "---ab".data) := by
  constructor
  · exact (c6_missing_delimiter_fallback yamlSafeLoadSimple ("hello".data)).1 (by rfl)
  · exact (c6_missing_delimiter_fallback yamlSafeLoadSimple ("---ab".data)).2
      (by rfl) (by decide)

/-- Counterexample to C4 as stated: on the input `"---a---b"` with a decoder
that fails on the block `"a"` (standing for malformed YAML), the parser
raises (`.error`), it does not return normally with an empty metadata
mapping. -/
theorem c4_malformed_yaml_counterexample :
    parse_front_matter_string (fun _ => YamlResult.failure) ("---a---b".data) =
        .error () ∧
    parse_front_matter_string (fun _ => YamlResult.failure) ("---a---b".data) ≠
        .ok ([], "b".data) := by
  constructor
  · rfl
  · intro h
    exact Except.noConfusion h

/-- C4 as amended: when the text starts with the delimiter and splits into
three parts, a decode that raises propagates out of the parser as an error
(the exception is not caught), while a decode that yields nothing (an empty
document, `None`) degrades to an empty metadata mapping. -/
theorem c4_decode_failure_propagates (decode : Str → YamlResult)
    (text pre fm body : Str)
    (h1 : beginsWith dashes text = true)
    (h2 : pySplit2 dashes text = [pre, fm, body]) :
    (decode fm = .failure →
      parse_front_matter_string decode text = .error ()) ∧
    (decode fm = .empty →
      parse_front_matter_string decode text = .ok ([], body)) := by
  unfold parse_front_matter_string
  rw [h1, h2]
  constructor <;> intro h <;> simp [h]

/-- Witness for C4 amended at the concrete input `"---a---b"`: a failing
decode makes the parser raise, an empty decode yields the empty mapping with
body `"b"`. -/
theorem c4_decode_failure_propagates_witness :
    parse_front_matter_string (fun _ => YamlResult.failure) ("---a---b".data) =
        .error () ∧
    parse_front_matter_string (fun _ => YamlResult.empty) ("---a---b".data) =
        .ok ([], "b".data) := by
  constructor
  · exact (c4_decode_failure_propagates (fun _ => YamlResult.failure)
      ("---a---b".data) [] ("a".data) ("b".data) (by rfl) (by rfl)).1 rfl
  · exact (c4_decode_failure_propagates (fun _ => YamlResult.empty)
      ("---a---b".data) [] ("a".data) ("b".data) (by rfl) (by rfl)).2 rfl

/-- ASCII letter or digit.  The model of the alphanumeric characters the
slugify library keeps (input beyond ASCII does not occur in the list file
names). -/
def isAlnumA (c : Char) : Bool :=
  (97 ≤ c.toNat && c.toNat ≤ 122) || (65 ≤ c.toNat && c.toNat ≤ 90) ||
    (48 ≤ c.toNat && c.toNat ≤ 57)

/-- ASCII lower-casing of one character (Python `str.lower`, and the
lowercase step of slugify, restricted to ASCII). -/
def lowerA (c : Char) : Char :=
  if 65 ≤ c.toNat && c.toNat ≤ 90 then Char.ofNat (c.toNat + 32) else c

/-- Python `s.lower()` on a string. -/
def pyLower (l : Str) : Str := l.map lowerA

/-- The maximal runs of alphanumeric characters of a string, in order, with
the separating non-alphanumeric characters dropped. -/
def alnumRuns : Str → List Str
  | [] => []
  | c :: cs =>
    let r := alnumRuns cs
    if isAlnumA c then
      match cs with
      | [] => [[c]]
      | d :: _ =>
        if isAlnumA d then
          match r with
          | w :: ws => (c :: w) :: ws
          | [] => [[c]]
        else [c] :: r
    else r

/-- Python `sep.join(parts)`. -/
def joinSep (sep : Str) : List Str → Str
  | [] => []
  | [w] => w
  | w :: w2 :: ws => w ++ sep ++ joinSep sep (w2 :: ws)

/-- Model of the library call `slugify` on ASCII input: lower-case the
input, replace every maximal run of non-alphanumeric characters by a single
dash and strip dashes at both ends (python-slugify substitutes disallowed
characters by the separator, collapses duplicate separators and strips;
on ASCII that equals joining the lower-cased alphanumeric runs with a
dash). -/
def slugifyA (l : Str) : Str := joinSep ['-'] (alnumRuns (l.map lowerA))

/-- The slug derivation of both scripts: `slugify(stem).lower()`
(src/build_lists.py:90, src/build_compact_lists_UNFINISHED.py:82). -/
def slugDerive (l : Str) : Str := pyLower (slugifyA l)

theorem char_ofNat_toNat_lower (n : Nat) (h1 : 97 ≤ n) (h2 : n ≤ 122) :
    (Char.ofNat n).toNat = n := by
  have hv : n.isValidChar := by left; omega
  rw [Char.ofNat, dif_pos hv]
  simp [Char.ofNatAux, Char.toNat, UInt32.toNat]

theorem lowerA_upper (c : Char) (h : (65 ≤ c.toNat && c.toNat ≤ 90) = true) :
    lowerA c = Char.ofNat (c.toNat + 32) := by
  unfold lowerA
  rw [if_pos h]

theorem lowerA_not_upper (c : Char) (h : ¬(65 ≤ c.toNat && c.toNat ≤ 90) = true) :
    lowerA c = c := by
  unfold lowerA
  rw [if_neg h]

theorem lowerA_idem (c : Char) : lowerA (lowerA c) = lowerA c := by
  by_cases h : (65 ≤ c.toNat && c.toNat ≤ 90) = true
  · have hb := h
    simp only [Bool.and_eq_true, decide_eq_true_eq] at hb
    have ht : (Char.ofNat (c.toNat + 32)).toNat = c.toNat + 32 :=
      char_ofNat_toNat_lower _ (by omega) (by omega)
    rw [lowerA_upper c h]
    apply lowerA_not_upper
    simp only [ht, Bool.and_eq_true, decide_eq_true_eq, not_and]
    omega
  · rw [lowerA_not_upper c h]
    exact lowerA_not_upper c h

theorem isAlnumA_lowerA (c : Char) : isAlnumA (lowerA c) = isAlnumA c := by
  by_cases h : (65 ≤ c.toNat && c.toNat ≤ 90) = true
  · have hb := h
    simp only [Bool.and_eq_true, decide_eq_true_eq] at hb
    have ht : (Char.ofNat (c.toNat + 32)).toNat = c.toNat + 32 :=
      char_ofNat_toNat_lower _ (by omega) (by omega)
    have l1 : isAlnumA (Char.ofNat (c.toNat + 32)) = true := by
      unfold isAlnumA
      simp only [ht, Bool.or_eq_true, Bool.and_eq_true, decide_eq_true_eq]
      omega
    have l2 : isAlnumA c = true := by
      unfold isAlnumA
      simp only [Bool.or_eq_true, Bool.and_eq_true, decide_eq_true_eq]
      omega
    rw [lowerA_upper c h, l1, l2]
  · rw [lowerA_not_upper c h]

theorem alnumRuns_ne_nil (d : Char) (t : Str) (h : isAlnumA d = true) :
    alnumRuns (d :: t) ≠ [] := by
  simp only [alnumRuns, h, if_true]
  cases t with
  | nil => simp
  | cons e t' =>
    by_cases he : isAlnumA e = true
    · simp only [he, if_true]
      rcases alnumRuns (e :: t') with _ | ⟨w, ws⟩ <;> simp
    · simp only [he, if_false]
      simp

theorem alnumRuns_sep (c : Char) (t : Str) (h : isAlnumA c = false) :
    alnumRuns (c :: t) = alnumRuns t := by
  simp [alnumRuns, h]

theorem alnumRuns_append (w rest : Str) (hw : w ≠ [])
    (hall : ∀ c ∈ w, isAlnumA c = true)
    (hrest : rest = [] ∨ ∃ d t, rest = d :: t ∧ isAlnumA d = false) :
    alnumRuns (w ++ rest) = w :: alnumRuns rest := by
  induction w with
  | nil => exact absurd rfl hw
  | cons c w' ih =>
    have hc : isAlnumA c = true := hall c (by simp)
    cases w' with
    | nil =>
      rcases hrest with h | ⟨d, t, rfl, hd⟩
      · subst h
        simp [alnumRuns, hc]
      · simp [alnumRuns, hc, hd]
    | cons c2 w'' =>
      have hc2 : isAlnumA c2 = true := hall c2 (by simp)
      have ih' := ih (by simp) (fun x hx => hall x (List.mem_cons_of_mem _ hx))
      simp only [List.cons_append] at ih' ⊢
      conv_lhs => rw [alnumRuns.eq_def]
      simp only [hc, hc2, if_true, ih']

theorem alnumRuns_joinSep (ws : List Str)
    (h : ∀ w ∈ ws, w ≠ [] ∧ ∀ c ∈ w, isAlnumA c = true) :
    alnumRuns (joinSep ['-'] ws) = ws := by
  induction ws with
  | nil => rfl
  | cons w ws' ih =>
    cases ws' with
    | nil =>
      have hw := h w (by simp)
      have := alnumRuns_append w [] hw.1 hw.2 (Or.inl rfl)
      simpa [joinSep] using this
    | cons w2 ws'' =>
      have hw := h w (by simp)
      have step : joinSep ['-'] (w :: w2 :: ws'') =
          w ++ ('-' :: joinSep ['-'] (w2 :: ws'')) := by
        simp [joinSep]
      rw [step,
        alnumRuns_append w _ hw.1 hw.2 (Or.inr ⟨'-', _, rfl, by decide⟩),
        alnumRuns_sep '-' _ (by decide),
        ih (fun x hx => h x (List.mem_cons_of_mem _ hx))]

theorem alnumRuns_mem (l : Str) :
    ∀ w ∈ alnumRuns l, w ≠ [] ∧ ∀ c ∈ w, isAlnumA c = true ∧ c ∈ l := by
  induction l with
  | nil => intro w hw; exact absurd hw (by simp [alnumRuns])
  | cons c cs ih =>
    intro w hw
    by_cases hc : isAlnumA c = true
    · cases cs with
      | nil =>
        simp only [alnumRuns, hc, if_true] at hw
        rcases List.mem_singleton.mp hw with rfl
        exact ⟨by simp, by simp [hc]⟩
      | cons d t =>
        by_cases hd : isAlnumA d = true
        · cases e : alnumRuns (d :: t) with
          | nil => exact absurd e (alnumRuns_ne_nil d t hd)
          | cons w0 ws0 =>
            conv at hw => rw [alnumRuns.eq_def]
            simp only [hc, hd, if_true, e] at hw
            rcases List.mem_cons.mp hw with rfl | hw2
            · have h0 := ih w0 (by rw [e]; exact List.mem_cons_self _ _)
              refine ⟨by simp, ?_⟩
              intro x hx
              rcases List.mem_cons.mp hx with rfl | hx2
              · exact ⟨hc, by simp⟩
              · have hp := h0.2 x hx2
                exact ⟨hp.1, List.mem_cons_of_mem _ hp.2⟩
            · have h0 := ih w (by rw [e]; exact List.mem_cons_of_mem _ hw2)
              refine ⟨h0.1, ?_⟩
              intro x hx
              have hp := h0.2 x hx
              exact ⟨hp.1, List.mem_cons_of_mem _ hp.2⟩
        · conv at hw => rw [alnumRuns.eq_def]
          simp only [hc, hd, if_true, Bool.false_eq_true, if_false] at hw
          rcases List.mem_cons.mp hw with rfl | hw2
          · exact ⟨by simp, by simp [hc]⟩
          · have h0 := ih w hw2
            refine ⟨h0.1, ?_⟩
            intro x hx
            have hp := h0.2 x hx
            exact ⟨hp.1, List.mem_cons_of_mem _ hp.2⟩
    · rw [alnumRuns_sep c cs (by simpa using hc)] at hw
      have h0 := ih w hw
      refine ⟨h0.1, ?_⟩
      intro x hx
      have hp := h0.2 x hx
      exact ⟨hp.1, List.mem_cons_of_mem _ hp.2⟩

theorem map_joinSep (f : Char → Char) (sep : Str) (ws : List Str) :
    (joinSep sep ws).map f = joinSep (sep.map f) (ws.map (List.map f)) := by
  induction ws with
  | nil => rfl
  | cons w ws' ih =>
    cases ws' with
    | nil => rfl
    | cons w2 ws'' =>
      simp only [joinSep, List.map_append, List.map_cons]
      rw [ih]
      simp [joinSep]

theorem pyLower_slugifyA (l : Str) : pyLower (slugifyA l) = slugifyA l := by
  unfold pyLower slugifyA
  rw [map_joinSep]
  have hsep : ['-'].map lowerA = ['-'] := by decide
  rw [hsep]
  congr 1
  have hmem := alnumRuns_mem (l.map lowerA)
  apply List.map_congr_left ?_ |>.trans (List.map_id _)
  intro w hw
  apply List.map_congr_left ?_ |>.trans (List.map_id _)
  intro c hc
  have hcl := (hmem w hw).2 c hc
  rcases List.mem_map.mp hcl.2 with ⟨x, _, rfl⟩
  exact lowerA_idem x

theorem slugifyA_idem (l : Str) : slugifyA (slugifyA l) = slugifyA l := by
  have hruns : ∀ w ∈ alnumRuns (l.map lowerA), w ≠ [] ∧ ∀ c ∈ w, isAlnumA c = true := by
    intro w hw
    have hp := alnumRuns_mem (l.map lowerA) w hw
    exact ⟨hp.1, fun c hc => (hp.2 c hc).1⟩
  have h1 : List.map lowerA (slugifyA l) = slugifyA l := pyLower_slugifyA l
  show joinSep ['-'] (alnumRuns (List.map lowerA (slugifyA l))) = slugifyA l
  rw [h1]
  show joinSep ['-'] (alnumRuns (joinSep ['-'] (alnumRuns (List.map lowerA l)))) = slugifyA l
  rw [alnumRuns_joinSep _ hruns]
  rfl

/-- C7: slug derivation is idempotent.  `slugDerive` is the composite the
scripts apply to a file stem (library `slugify`, modelled by `slugifyA`,
followed by `str.lower`), and applying it to one of its own outputs returns
that output unchanged; equivalently `slugDerive` is idempotent on every
string. -/
theorem c7_slug_derivation_idempotent (name : Str) :
    slugDerive (slugDerive name) = slugDerive name := by
  unfold slugDerive
  rw [pyLower_slugifyA, pyLower_slugifyA, slugifyA_idem]

/-- A cluster of the compact pipeline: an ordered list of terms and an
ordered list of associates (the OrderedDict values built by
`parse_clusters_md` and consumed by `merge_clusters`). -/
structure ClusterData where
  terms : List Str
  associates : List Str
  deriving DecidableEq, Inhabited

/-- Lookup in an association list modelling a Python dict (a dict holds
each key at most once; lookup finds the binding of the key). -/
def dlookup {α : Type} (m : List (Str × α)) (k : Str) : Option α :=
  (m.find? (fun p => p.1 = k)).map (fun p => p.2)

/-- Assignment `m[k] = v` on a Python dict modelled as an association list:
an existing binding is updated in place, otherwise the binding is appended
(Python dicts preserve insertion order). -/
def dinsert {α : Type} (m : List (Str × α)) (k : Str) (v : α) : List (Str × α) :=
  if m.any (fun p => p.1 = k) then
    m.map (fun p => if p.1 = k then (k, v) else p)
  else m ++ [(k, v)]

/-- Python `m.get(key, default)`. -/
def dget {α : Type} (m : List (Str × α)) (k : Str) (default : α) : α :=
  (dlookup m k).getD default

/-- Embedding of `merge_clusters` (src/build_compact_lists_UNFINISHED.py:
87-106).  `old` is the ordered mapping of existing clusters, `new` maps keys
to fresh term lists.  The two loops of the source become two folds over an
accumulating ordered dict: first every old key with
`terms = new.get(key, data['terms'])` and the old associates, then every new
key not already present appended with empty associates. -/
def merge_clusters (old : List (Str × ClusterData)) (new : List (Str × List Str)) :
    List (Str × ClusterData) :=
  let merged := old.foldl
    (fun m kd => dinsert m kd.1 ⟨dget new kd.1 kd.2.terms, kd.2.associates⟩) []
  new.foldl
    (fun m kt =>
      if m.any (fun p => p.1 = kt.1) then m else m ++ [(kt.1, ⟨kt.2, []⟩)])
    merged

theorem dinsert_fresh {α : Type} (m : List (Str × α)) (k : Str) (v : α)
    (h : k ∉ m.map Prod.fst) : dinsert m k v = m ++ [(k, v)] := by
  unfold dinsert
  rw [if_neg]
  intro hx
  rcases List.any_eq_true.mp hx with ⟨p, hp, he⟩
  exact h (List.mem_map.mpr ⟨p, hp, of_decide_eq_true he⟩)

theorem merge_first_loop (new : List (Str × List Str)) :
    ∀ (old : List (Str × ClusterData)) (m : List (Str × ClusterData)),
    (old.map Prod.fst).Nodup →
    (∀ k ∈ old.map Prod.fst, k ∉ m.map Prod.fst) →
    old.foldl
        (fun m kd => dinsert m kd.1 ⟨dget new kd.1 kd.2.terms, kd.2.associates⟩) m =
      m ++ old.map (fun kd =>
        (kd.1, (⟨dget new kd.1 kd.2.terms, kd.2.associates⟩ : ClusterData))) := by
  intro old
  induction old with
  | nil => intro m _ _; simp
  | cons kd old' ih =>
    intro m hnd hfresh
    simp only [List.foldl_cons, List.map_cons]
    rw [dinsert_fresh m kd.1 _ (hfresh kd.1 (by simp))]
    have hnd' : (old'.map Prod.fst).Nodup := by
      simp only [List.map_cons, List.nodup_cons] at hnd
      exact hnd.2
    have hhd : kd.1 ∉ old'.map Prod.fst := by
      simp only [List.map_cons, List.nodup_cons] at hnd
      exact hnd.1
    have hfresh2 : ∀ k ∈ old'.map Prod.fst,
        k ∉ (m ++ [(kd.1,
          (⟨dget new kd.1 kd.2.terms, kd.2.associates⟩ : ClusterData))]).map Prod.fst := by
      intro k hk
      simp only [List.map_append, List.mem_append, List.map_cons, List.map_nil,
        List.mem_singleton, not_or]
      constructor
      · exact hfresh k (List.mem_cons_of_mem _ hk)
      · intro e
        subst e
        exact hhd hk
    rw [ih _ hnd' hfresh2]
    simp

theorem merge_second_loop :
    ∀ (new : List (Str × List Str)) (m : List (Str × ClusterData)),
    (new.map Prod.fst).Nodup →
    new.foldl
        (fun m kt =>
          if m.any (fun p => p.1 = kt.1) then m else m ++ [(kt.1, ⟨kt.2, []⟩)]) m =
      m ++ (new.filter (fun kt => decide (kt.1 ∉ m.map Prod.fst))).map
        (fun kt => (kt.1, (⟨kt.2, []⟩ : ClusterData))) := by
  intro new
  induction new with
  | nil => intro m _; simp
  | cons kt rest ih =>
    intro m hnd
    have hnd' : (rest.map Prod.fst).Nodup := by
      simp only [List.map_cons, List.nodup_cons] at hnd
      exact hnd.2
    have hhd : kt.1 ∉ rest.map Prod.fst := by
      simp only [List.map_cons, List.nodup_cons] at hnd
      exact hnd.1
    simp only [List.foldl_cons]
    by_cases hmem : kt.1 ∈ m.map Prod.fst
    · have hany : (m.any (fun p => p.1 = kt.1)) = true := by
        rcases List.mem_map.mp hmem with ⟨p, hp, he⟩
        exact List.any_eq_true.mpr ⟨p, hp, decide_eq_true he⟩
      rw [if_pos hany, ih m hnd']
      have hfilter : (kt :: rest).filter (fun kt => decide (kt.1 ∉ m.map Prod.fst)) =
          rest.filter (fun kt => decide (kt.1 ∉ m.map Prod.fst)) := by
        rw [List.filter_cons_of_neg]
        simp [hmem]
      rw [hfilter]
    · have hany : (m.any (fun p => p.1 = kt.1)) = false := by
        rw [List.any_eq_false]
        intro p hp
        simp only [decide_eq_true_eq]
        intro e
        exact hmem (List.mem_map.mpr ⟨p, hp, e⟩)
      rw [if_neg (by simp [hany]), ih _ hnd']
      have hkeys : (m ++ [(kt.1, (⟨kt.2, []⟩ : ClusterData))]).map Prod.fst =
          m.map Prod.fst ++ [kt.1] := by
        simp
      have hfilter : rest.filter
            (fun p => decide (p.1 ∉ (m ++ [(kt.1, (⟨kt.2, []⟩ : ClusterData))]).map Prod.fst)) =
          rest.filter (fun p => decide (p.1 ∉ m.map Prod.fst)) := by
        apply List.filter_congr
        intro p hp
        have hne : p.1 ≠ kt.1 := by
          intro e
          exact hhd (e ▸ List.mem_map.mpr ⟨p, hp, rfl⟩)
        rw [hkeys]
        simp [hne]
      rw [hfilter]
      have hcons : (kt :: rest).filter (fun p => decide (p.1 ∉ m.map Prod.fst)) =
          kt :: rest.filter (fun p => decide (p.1 ∉ m.map Prod.fst)) := by
        rw [List.filter_cons_of_pos]
        simp [hmem]
      rw [hcons]
      simp

/-- C2: `merge_clusters` keeps every old key in order, replacing its terms
by the new value when the key is present in `new` and keeping the old terms
otherwise, always carrying the old associates over unchanged; and it appends
every key of `new` absent from `old`, after all old keys, with its new terms
and an empty associates list.  `old` and `new` stand for Python dicts, so
their key lists are assumed duplicate-free. -/
theorem c2_merge_clusters_characterisation
    (old : List (Str × ClusterData)) (new : List (Str × List Str))
    (hold : (old.map Prod.fst).Nodup) (hnew : (new.map Prod.fst).Nodup) :
    merge_clusters old new =
      old.map (fun kd => (kd.1,
        (⟨dget new kd.1 kd.2.terms, kd.2.associates⟩ : ClusterData))) ++
      (new.filter (fun kt => decide (kt.1 ∉ old.map Prod.fst))).map
        (fun kt => (kt.1, (⟨kt.2, []⟩ : ClusterData))) := by
  unfold merge_clusters
  rw [merge_first_loop new old [] hold (by simp)]
  simp only [List.nil_append]
  rw [merge_second_loop new _ hnew]
  have hkeys : (old.map (fun kd => (kd.1,
      (⟨dget new kd.1 kd.2.terms, kd.2.associates⟩ : ClusterData)))).map Prod.fst =
      old.map Prod.fst := by
    simp [List.map_map, Function.comp]
  rw [hkeys]

/-- Witness for C2 at the concrete instance of the claim: merging
`{a: {terms: [1], associates: [x]}}` with `{a: [2]}` yields
`{a: {terms: [2], associates: [x]}}`. -/
theorem c2_merge_clusters_witness :
    merge_clusters [("a".data, ⟨["1".data], ["x".data]⟩)] [("a".data, ["2".data])] =
      [("a".data, ⟨["2".data], ["x".data]⟩)] := by
  have h := c2_merge_clusters_characterisation
    [("a".data, ⟨["1".data], ["x".data]⟩)] [("a".data, ["2".data])]
    (by decide) (by decide)
  rw [h]
  decide

/-- Embedding of `build_md_from_clusters`
(src/build_compact_lists_UNFINISHED.py:108-119).  `sep` is `","` in compact
mode and `", "` in readable mode, `nl` is `""` respectively `"\n"`; the
parts list holds the header followed, per cluster, by the `### key` line,
the terms line, the associates line and, in readable mode only, a blank
entry; the parts are joined with `nl` and the result stripped. -/
def build_md_from_clusters (clusters : List (Str × ClusterData))
    (compact : Bool) : Str :=
  let sep := if compact then ",".data else ", ".data
  let nl := if compact then [] else "\n".data
  let parts := "# Prompt Clusters Data".data ::
    clusters.flatMap (fun kd =>
      ["### ".data ++ kd.1,
       "- terms:".data ++ joinSep sep kd.2.terms,
       "- associates:".data ++ joinSep sep kd.2.associates] ++
      (if compact then [] else [[]]))
  stripL (joinSep nl parts)

/-- Separator or whitespace: a comma or a character Python `strip` removes. -/
def isSepWs (c : Char) : Bool := c = ',' || isPyWs c

/-- Erase every separator and whitespace character of a string. -/
def eraseSepWs (l : Str) : Str := l.filter (fun c => !isSepWs c)

theorem joinSep_nil_cons (w : Str) (ws : List Str) :
    joinSep [] (w :: ws) = w ++ joinSep [] ws := by
  cases ws <;> simp [joinSep]

theorem joinSep_nil_append (l1 l2 : List Str) :
    joinSep [] (l1 ++ l2) = joinSep [] l1 ++ joinSep [] l2 := by
  induction l1 with
  | nil => simp [joinSep]
  | cons w ws ih =>
    rw [List.cons_append, joinSep_nil_cons, ih, joinSep_nil_cons,
      List.append_assoc]

theorem eraseSepWs_append (a b : Str) :
    eraseSepWs (a ++ b) = eraseSepWs a ++ eraseSepWs b :=
  List.filter_append a b

theorem eraseSepWs_joinSep (sep : Str) (hsep : eraseSepWs sep = [])
    (ws : List Str) :
    eraseSepWs (joinSep sep ws) = joinSep [] (ws.map eraseSepWs) := by
  induction ws with
  | nil => rfl
  | cons w ws' ih =>
    cases ws' with
    | nil => simp [joinSep]
    | cons w2 ws'' =>
      simp only [joinSep, List.map_cons]
      rw [eraseSepWs_append, eraseSepWs_append, hsep, ih, List.map_cons]

theorem eraseSepWs_dropWhileWs (l : Str) :
    eraseSepWs (l.dropWhile isPyWs) = eraseSepWs l := by
  induction l with
  | nil => rfl
  | cons c cs ih =>
    by_cases h : isPyWs c = true
    · rw [List.dropWhile_cons_of_pos h, ih]
      have : eraseSepWs (c :: cs) = eraseSepWs cs := by
        unfold eraseSepWs
        rw [List.filter_cons_of_neg]
        simp [isSepWs, h]
      rw [this]
    · rw [List.dropWhile_cons_of_neg h]

theorem eraseSepWs_reverse (l : Str) :
    eraseSepWs l.reverse = (eraseSepWs l).reverse :=
  List.filter_reverse _ l

theorem eraseSepWs_stripL (l : Str) : eraseSepWs (stripL l) = eraseSepWs l := by
  unfold stripL
  rw [eraseSepWs_reverse, eraseSepWs_dropWhileWs, eraseSepWs_reverse,
    List.reverse_reverse, eraseSepWs_dropWhileWs]

theorem build_md_compact_eq (clusters : List (Str × ClusterData)) :
    build_md_from_clusters clusters true =
      stripL (joinSep [] ("# Prompt Clusters Data".data ::
        clusters.flatMap (fun kd =>
          ["### ".data ++ kd.1,
           "- terms:".data ++ joinSep (",".data) kd.2.terms,
           "- associates:".data ++ joinSep (",".data) kd.2.associates]))) := rfl

theorem build_md_readable_eq (clusters : List (Str × ClusterData)) :
    build_md_from_clusters clusters false =
      stripL (joinSep ("\n".data) ("# Prompt Clusters Data".data ::
        clusters.flatMap (fun kd =>
          ["### ".data ++ kd.1,
           "- terms:".data ++ joinSep (", ".data) kd.2.terms,
           "- associates:".data ++ joinSep (", ".data) kd.2.associates,
           []]))) := rfl

/-- C5 as amended: for every cluster mapping the compact and the readable
serialisations differ only in separator and whitespace characters: erasing
every comma and whitespace character from either output yields the same
string.  (The further clause of C5, that each output determines the cluster
data, fails; see the counterexample.) -/
theorem c5_serialisations_erase_equal (clusters : List (Str × ClusterData)) :
    eraseSepWs (build_md_from_clusters clusters true) =
      eraseSepWs (build_md_from_clusters clusters false) := by
  rw [build_md_compact_eq, build_md_readable_eq, eraseSepWs_stripL,
    eraseSepWs_stripL, eraseSepWs_joinSep [] rfl,
    eraseSepWs_joinSep ("\n".data) (by decide)]
  simp only [List.map_cons, joinSep_nil_cons]
  congr 1
  induction clusters with
  | nil => rfl
  | cons kd rest ih =>
    simp only [List.flatMap_cons, List.map_append, joinSep_nil_append, ih]
    congr 1
    simp only [List.map_cons, List.map_nil, joinSep_nil_cons, eraseSepWs_append,
      eraseSepWs_joinSep (",".data) (by decide),
      eraseSepWs_joinSep (", ".data) (by decide)]
    simp [joinSep, eraseSepWs]

/-- Counterexample to the determination clause of C5: two different cluster
mappings, with different term sequences for the key `k`, produce the
identical compact serialisation, so a compact output does not determine the
cluster data encoded in it. -/
theorem c5_compact_serialisation_collision :
    build_md_from_clusters [("k".data, ⟨["a- associates:x".data], []⟩)] true =
      build_md_from_clusters [("k".data, ⟨["a".data], ["x- associates:".data]⟩)] true ∧
    (⟨["a- associates:x".data], []⟩ : ClusterData) ≠
      ⟨["a".data], ["x- associates:".data]⟩ := by
  constructor
  · decide
  · decide

/-- An HTTP response as the scripts see it: a status code and a content
string.  The content stands both for `r.text` and for the decoded value
`r.json()` (JSON decoding itself is not modelled; only the handling of the
HTTP status is at issue in the claims). -/
structure HttpResponse where
  status : Nat
  content : Str
  deriving DecidableEq

namespace BuildLists

/-- Embedding of `fetch_json` (src/build_lists.py:22-23):
`return requests.get(url).json()`.  The response content is returned with no
check of the HTTP status, so an error response's body is decoded and
returned as data.  `get` stands for `requests.get`. -/
def fetch_json (get : Str → HttpResponse) (url : Str) : Except Unit Str :=
  .ok (get url).content

/-- Embedding of `fetch_text` (src/build_lists.py:25-26):
`return requests.get(url).text`, again with no status check. -/
def fetch_text (get : Str → HttpResponse) (url : Str) : Except Unit Str :=
  .ok (get url).content

end BuildLists

namespace BuildCompact

/-- Embedding of `fetch_json` (src/build_compact_lists_UNFINISHED.py:14-15):
`r = requests.get(url); r.raise_for_status(); return r.json()`.
`raise_for_status` raises `requests.HTTPError` exactly for a status in
400..599, aborting the run. -/
def fetch_json (get : Str → HttpResponse) (url : Str) : Except Unit Str :=
  if 400 ≤ (get url).status ∧ (get url).status ≤ 599 then .error ()
  else .ok (get url).content

/-- Embedding of `fetch_text` (src/build_compact_lists_UNFINISHED.py:17-18),
identical to `fetch_json` up to `.text` for `.json()`. -/
def fetch_text (get : Str → HttpResponse) (url : Str) : Except Unit Str :=
  if 400 ≤ (get url).status ∧ (get url).status ≤ 599 then .error ()
  else .ok (get url).content

end BuildCompact

/-- Counterexample to C9 as stated: in build_lists.py a fetch of a 404
response does not raise; the error response's content is returned as data. -/
theorem c9_fetch_error_counterexample :
    BuildLists.fetch_json (fun _ => ⟨404, "Not Found".data⟩) ("u".data) =
        .ok ("Not Found".data) ∧
    BuildLists.fetch_text (fun _ => ⟨404, "Not Found".data⟩) ("u".data) ≠
        .error () := by
  constructor
  · rfl
  · intro h
    exact Except.noConfusion h

/-- C9 as amended: only the compact variant checks the HTTP status.  Its
fetches raise on every HTTP error status (400..599) and the run aborts; the
fetches of build_lists.py return the response content whatever the status,
so there an error response's content flows into the build as data. -/
theorem c9_fetch_error_handling (get : Str → HttpResponse) (url : Str) :
    (400 ≤ (get url).status → (get url).status ≤ 599 →
      BuildCompact.fetch_json get url = .error () ∧
      BuildCompact.fetch_text get url = .error ()) ∧
    BuildLists.fetch_json get url = .ok (get url).content ∧
    BuildLists.fetch_text get url = .ok (get url).content := by
  refine ⟨fun h1 h2 => ⟨?_, ?_⟩, rfl, rfl⟩ <;>
    simp [BuildCompact.fetch_json, BuildCompact.fetch_text, h1, h2]

/-- Witness for C9 amended at a concrete 500 response: the compact fetch
raises while the build_lists fetch returns the error body. -/
theorem c9_fetch_error_handling_witness :
    BuildCompact.fetch_json (fun _ => ⟨500, "E".data⟩) ("u".data) = .error () ∧
    BuildLists.fetch_json (fun _ => ⟨500, "E".data⟩) ("u".data) = .ok ("E".data) := by
  have h := c9_fetch_error_handling (fun _ => ⟨500, "E".data⟩) ("u".data)
  exact ⟨(h.1 (by decide) (by decide)).1, h.2.1⟩

theorem stripPre_iff (p : Str) : ∀ l r : Str, stripPre p l = some r ↔ l = p ++ r := by
  induction p with
  | nil =>
    intro l r
    simp [stripPre]
  | cons a ps ih =>
    intro l r
    cases l with
    | nil => simp [stripPre]
    | cons c cs =>
      simp only [stripPre]
      by_cases h : a = c
      · subst h
        rw [if_pos rfl, ih cs r]
        simp
      · rw [if_neg h]
        constructor
        · intro hh
          exact absurd hh (by simp)
        · intro hh
          rw [List.cons_append] at hh
          injection hh with h1 _
          exact absurd h1.symm h

theorem beginsWith_iff (p l : Str) :
    beginsWith p l = true ↔ ∃ r, l = p ++ r := by
  unfold beginsWith
  rw [Option.isSome_iff_exists]
  constructor
  · rintro ⟨r, hr⟩
    exact ⟨r, (stripPre_iff p l r).mp hr⟩
  · rintro ⟨r, hr⟩
    exact ⟨r, (stripPre_iff p l r).mpr hr⟩

/-- Python `name.endswith(suf)`. -/
def endsWith (suf l : Str) : Bool := beginsWith suf.reverse l.reverse

theorem endsWith_iff (suf l : Str) :
    endsWith suf l = true ↔ ∃ pre, l = pre ++ suf := by
  unfold endsWith
  rw [beginsWith_iff]
  constructor
  · rintro ⟨r, hr⟩
    refine ⟨r.reverse, ?_⟩
    have h2 := congrArg List.reverse hr
    simpa using h2
  · rintro ⟨pre, rfl⟩
    exact ⟨pre.reverse, by simp⟩

theorem splitFirst_some (sep : Str) :
    ∀ l a b, splitFirst sep l = some (a, b) → l = a ++ sep ++ b := by
  intro l
  induction l with
  | nil =>
    intro a b h
    simp only [splitFirst] at h
    cases e : stripPre sep [] with
    | none => rw [e] at h; exact absurd h (by simp)
    | some r =>
      rw [e] at h
      simp only [Option.map_some'] at h
      injection h with h1
      injection h1 with ha hb
      subst ha
      subst hb
      have hsep := (stripPre_iff sep [] r).mp e
      simp only [List.nil_append]
      exact hsep
  | cons c cs ih =>
    intro a b h
    simp only [splitFirst] at h
    cases e : stripPre sep (c :: cs) with
    | some r =>
      rw [e] at h
      injection h with h1
      injection h1 with ha hb
      subst ha
      subst hb
      simp only [List.nil_append]
      exact (stripPre_iff sep _ r).mp e
    | none =>
      rw [e] at h
      cases e2 : splitFirst sep cs with
      | none => rw [e2] at h; exact absurd h (by simp)
      | some p =>
        rw [e2] at h
        simp only [Option.map_some'] at h
        injection h with h1
        injection h1 with ha hb
        have hcs := ih p.1 p.2 (by rw [e2])
        subst ha
        subst hb
        rw [List.cons_append, List.cons_append, ← hcs]

theorem splitFirst_isSome (sep : Str) :
    ∀ x y : Str, (splitFirst sep (x ++ sep ++ y)).isSome = true := by
  intro x
  induction x with
  | nil =>
    intro y
    have hsp : stripPre sep (sep ++ y) = some y := (stripPre_iff sep _ y).mpr rfl
    cases hb : sep ++ y with
    | nil =>
      simp only [List.nil_append, hb, splitFirst]
      rw [hb] at hsp
      cases sep with
      | nil => simp [stripPre]
      | cons s ss => simp [stripPre] at hsp
    | cons c cs =>
      simp only [List.nil_append, hb, splitFirst]
      rw [hb] at hsp
      rw [hsp]
      rfl
  | cons c x' ih =>
    intro y
    simp only [List.cons_append]
    simp only [splitFirst]
    cases e : stripPre sep (c :: (x' ++ sep ++ y)) with
    | some r => rfl
    | none =>
      simp only [Option.isSome_map']
      exact ih y

theorem isSubstr_iff (sep l : Str) :
    isSubstr sep l = true ↔ ∃ x y, l = x ++ sep ++ y := by
  unfold isSubstr
  constructor
  · intro h
    rcases Option.isSome_iff_exists.mp h with ⟨⟨a, b⟩, he⟩
    exact ⟨a, b, splitFirst_some sep l a b he⟩
  · rintro ⟨x, y, rfl⟩
    exact splitFirst_isSome sep x y

/-- Index of the first dot of a string. -/
def firstIdxDot : Str → Option Nat
  | [] => none
  | c :: cs => if c = '.' then some 0 else (firstIdxDot cs).map (fun k => k + 1)

/-- Model of pathlib `PurePath.suffix` on a file name: the substring from
the last dot on, when that dot is neither the first nor the last character
(CPython: `i = name.rfind('.'); return name[i:] if 0 < i < len(name) - 1
else ''`).  The last dot of `name` is found as the first dot of the
reversed name. -/
def pathSuffix (name : Str) : Str :=
  match firstIdxDot name.reverse with
  | none => []
  | some k =>
    if 0 < name.length - 1 - k ∧ name.length - 1 - k < name.length - 1 then
      name.drop (name.length - 1 - k)
    else []

theorem firstIdxDot_yml_reverse (r : Str) :
    firstIdxDot ('l' :: 'm' :: 'y' :: '.' :: r) = some 3 := by
  simp +decide [firstIdxDot]

theorem pathSuffix_none (name : Str) (h : firstIdxDot name.reverse = none) :
    pathSuffix name = [] := by
  unfold pathSuffix
  rw [h]

theorem pathSuffix_eq (name : Str) (k : Nat)
    (h : firstIdxDot name.reverse = some k) :
    pathSuffix name =
      if 0 < name.length - 1 - k ∧ name.length - 1 - k < name.length - 1 then
        name.drop (name.length - 1 - k)
      else [] := by
  unfold pathSuffix
  rw [h]

theorem pathSuffix_eq_yml_iff (name : Str) :
    pathSuffix name = ".yml".data ↔
      ∃ pre, pre ≠ [] ∧ name = pre ++ ".yml".data := by
  constructor
  · intro h
    cases e : firstIdxDot name.reverse with
    | none =>
      rw [pathSuffix_none name e] at h
      exact absurd h (by decide)
    | some k =>
      rw [pathSuffix_eq name k e] at h
      by_cases hc : 0 < name.length - 1 - k ∧ name.length - 1 - k < name.length - 1
      · rw [if_pos hc] at h
        refine ⟨name.take (name.length - 1 - k), ?_, ?_⟩
        · have hlt : name.length - 1 - k < name.length := by
            by_contra hge
            push_neg at hge
            rw [List.drop_eq_nil_of_le hge] at h
            exact absurd h (by decide)
          have hlen : (name.take (name.length - 1 - k)).length =
              name.length - 1 - k := by
            rw [List.length_take]
            omega
          intro hnil
          rw [hnil] at hlen
          simp only [List.length_nil] at hlen
          omega
        · conv_lhs => rw [← List.take_append_drop (name.length - 1 - k) name]
          rw [h]
      · rw [if_neg hc] at h
        exact absurd h (by decide)
  · rintro ⟨pre, hpre, rfl⟩
    have hrev : (pre ++ ".yml".data).reverse =
        'l' :: 'm' :: 'y' :: '.' :: pre.reverse := by
      rw [List.reverse_append]
      rfl
    have hfst : firstIdxDot (pre ++ ".yml".data).reverse = some 3 := by
      rw [hrev]
      exact firstIdxDot_yml_reverse pre.reverse
    have hlen : (pre ++ ".yml".data).length = pre.length + 4 := by
      simp
    rw [pathSuffix_eq _ 3 hfst, hlen]
    have h1 : pre.length + 4 - 1 - 3 = pre.length := by omega
    rw [h1]
    have hpos : 0 < pre.length := List.length_pos.mpr hpre
    rw [if_pos ⟨by omega, by omega⟩]
    exact List.drop_left pre (".yml".data)

/-- The blacklist of both scripts (src/build_lists.py:15,
src/build_compact_lists_UNFINISHED.py:11). -/
def BLACKLIST : List Str := ["all.yml".data]

/-- The file filter of build_lists.py in remote mode (lines 83-86):
`f['name'].endswith('.yml') and f['name'] not in BLACKLIST`. -/
def qualifies_remote (name : Str) : Bool :=
  endsWith (".yml".data) name && !(BLACKLIST.any (fun b => b = name))

/-- The file filter of build_lists.py in local mode (lines 77-80):
`f.suffix == '.yml' and f.name not in BLACKLIST`. -/
def qualifies_local (name : Str) : Bool :=
  (pathSuffix name = ".yml".data) && !(BLACKLIST.any (fun b => b = name))

/-- The file filter of `fetch_yaml_clusters`
(src/build_compact_lists_UNFINISHED.py:77-79): the file is skipped unless
`name.endswith('.yml')` holds and no blacklisted name occurs IN `name` —
`b in name` is Python substring containment, not equality. -/
def qualifies_compact (name : Str) : Bool :=
  endsWith (".yml".data) name && !(BLACKLIST.any (fun b => isSubstr b name))

/-- Counterexample to C8 as stated: the compact variant skips the file
"small.yml" although that name is not a member of the blacklist (the string
"all.yml" occurs inside "small.yml" and the compact filter tests substring
containment); the build_lists.py filters do process it. -/
theorem c8_blacklist_counterexample :
    qualifies_compact ("small.yml".data) = false ∧
    qualifies_remote ("small.yml".data) = true ∧
    qualifies_local ("small.yml".data) = true ∧
    ¬ ("small.yml".data ∈ BLACKLIST) := by
  refine ⟨by decide, by decide, by decide, by decide⟩

/-- C8 as amended: the three file filters characterised.  In build_lists.py
remote mode a file is processed iff its name ends in ".yml" and is not a
member of the blacklist `['all.yml']`; in local mode additionally the name
must not be ".yml" itself (pathlib's suffix of ".yml" is empty); the compact
variant instead skips every name that CONTAINS a blacklisted name as a
substring — in particular "small.yml" is processed by build_lists.py but
skipped by the compact variant. -/
theorem c8_file_filters (name : Str) :
    (qualifies_remote name = true ↔
      (∃ pre, name = pre ++ ".yml".data) ∧ name ∉ BLACKLIST) ∧
    (qualifies_local name = true ↔
      (∃ pre, pre ≠ [] ∧ name = pre ++ ".yml".data) ∧ name ∉ BLACKLIST) ∧
    (qualifies_compact name = true ↔
      (∃ pre, name = pre ++ ".yml".data) ∧
        ∀ b ∈ BLACKLIST, ¬ ∃ x y, name = x ++ b ++ y) := by
  have hmem : ∀ m : List Str, (m.any (fun b => b = name)) = true ↔ name ∈ m := by
    intro m
    rw [List.any_eq_true]
    constructor
    · rintro ⟨b, hb, he⟩
      exact (of_decide_eq_true he) ▸ hb
    · intro hm
      exact ⟨name, hm, by simp⟩
  refine ⟨?_, ?_, ?_⟩
  · unfold qualifies_remote
    rw [Bool.and_eq_true, endsWith_iff]
    constructor
    · rintro ⟨h1, h2⟩
      refine ⟨h1, fun hm => ?_⟩
      rw [Bool.not_eq_true', ← Bool.not_eq_true] at h2
      exact h2 ((hmem BLACKLIST).mpr hm)
    · rintro ⟨h1, h2⟩
      refine ⟨h1, ?_⟩
      rw [Bool.not_eq_true', ← Bool.not_eq_true]
      intro hx
      exact h2 ((hmem BLACKLIST).mp hx)
  · unfold qualifies_local
    rw [Bool.and_eq_true, decide_eq_true_eq, pathSuffix_eq_yml_iff]
    constructor
    · rintro ⟨h1, h2⟩
      refine ⟨h1, fun hm => ?_⟩
      rw [Bool.not_eq_true', ← Bool.not_eq_true] at h2
      exact h2 ((hmem BLACKLIST).mpr hm)
    · rintro ⟨h1, h2⟩
      refine ⟨h1, ?_⟩
      rw [Bool.not_eq_true', ← Bool.not_eq_true]
      intro hx
      exact h2 ((hmem BLACKLIST).mp hx)
  · unfold qualifies_compact
    rw [Bool.and_eq_true, endsWith_iff]
    constructor
    · rintro ⟨h1, h2⟩
      refine ⟨h1, fun b hb hex => ?_⟩
      rw [Bool.not_eq_true', List.any_eq_false] at h2
      have hb2 := h2 b hb
      rw [isSubstr_iff] at hb2
      exact hb2 hex
    · rintro ⟨h1, h2⟩
      refine ⟨h1, ?_⟩
      rw [Bool.not_eq_true', List.any_eq_false]
      intro b hb
      rw [isSubstr_iff]
      exact h2 b hb

/-- One list record of `cat_dict` (src/build_lists.py:100-104): the title
from the metadata (slug as default), the parent category and the items. -/
structure ListRec where
  title : Str
  category : Str
  list : List Str
  deriving DecidableEq, Inhabited

/-- One flattened record of `thing_categories` (src/build_lists.py:111-115). -/
structure TCRec where
  title : Str
  category : Str
  deriving DecidableEq, Inhabited

/-- A file of a category listing as the builder sees it: its name and the
raw text its download URL resolves to (the network fetch is modelled by the
run input carrying the fetched content). -/
structure FileEntry where
  name : Str
  content : Str
  deriving DecidableEq, Inhabited

/-- One entry of the category listing (what `get_categories` returns): its
`type` field — `"dir"` for a real category — its name, and the files its
listing contains. -/
structure CatEntry where
  typ : Str
  name : Str
  files : List FileEntry
  deriving DecidableEq, Inhabited

abbrev CatDict := List (Str × List (Str × ListRec))
abbrev RevMap := List (Str × Nat)

/-- The mutable state of build_data's loops: `cat_dict`, `rev_map` and
`cat_keys` (src/build_lists.py:65-67). -/
structure BDState where
  cat_dict : CatDict
  rev_map : RevMap
  cat_keys : List Str
  deriving DecidableEq, Inhabited

def initBDState : BDState := ⟨[], [], []⟩

/-- A processed file reduced to what the loop body derives from it: its
category, its slug and its `cat_dict` record. -/
structure Triple where
  cat : Str
  slug : Str
  entry : ListRec
  deriving DecidableEq, Inhabited

/-- What the loop body of `build_data` computes from one file of category
`cat` (src/build_lists.py:88-104): the slug from `slugify(name[:-4]).lower()`,
metadata and body from the front matter (a raising decode propagates), the
items as the stripped non-blank lines of the body, and the record with
`title = meta.get('title', slug)`. -/
def fileTriple (decode : Str → YamlResult) (cat : Str) (f : FileEntry) :
    Except Unit Triple :=
  let slug := slugDerive (f.name.take (f.name.length - 4))
  match parse_front_matter_string decode f.content with
  | .error e => .error e
  | .ok (meta, body) =>
    let items := (pySplitLines body).filterMap
      (fun ln => if (stripL ln).isEmpty then none else some (stripL ln))
    .ok ⟨cat, slug, ⟨dget meta ("title".data) slug, cat, items⟩⟩

/-- `cat_dict.setdefault(cat, {})[slug] = rec` (src/build_lists.py:100):
when the category key is present, its inner dict receives the slug binding
in place; otherwise the category is appended holding just that binding. -/
def setdefaultInsert (cd : CatDict) (cat slug : Str) (r : ListRec) : CatDict :=
  if cd.any (fun p => p.1 = cat) then
    cd.map (fun p => if p.1 = cat then (cat, dinsert p.2 slug r) else p)
  else cd ++ [(cat, [(slug, r)])]

/-- The reverse-map writes of one processed file
(src/build_lists.py:108-109): `for it in items: rev_map[it.lower()] = idx`. -/
def insItems (m : RevMap) (items : List Str) (i : Nat) : RevMap :=
  items.foldl (fun m it => dinsert m (pyLower it) i) m

/-- The state updates of one processed file (src/build_lists.py:100-109):
the `setdefault` insert into `cat_dict`, the reverse-map writes at
`idx = len(cat_keys)` (the length before the append), and the append of
`key = f"{cat}.{slug}"` to `cat_keys`. -/
def applyTriple (st : BDState) (t : Triple) : BDState where
  cat_dict := setdefaultInsert st.cat_dict t.cat t.slug t.entry
  rev_map := insItems st.rev_map t.entry.list st.cat_keys.length
  cat_keys := st.cat_keys ++ [t.cat ++ ".".data ++ t.slug]

/-- The inner loop of `build_data` over the qualifying files of one
category (src/build_lists.py:88-109). -/
def runFiles (decode : Str → YamlResult) (cat : Str) :
    BDState → List FileEntry → Except Unit BDState
  | st, [] => .ok st
  | st, f :: fs =>
    match fileTriple decode cat f with
    | .error e => .error e
    | .ok t => runFiles decode cat (applyTriple st t) fs

/-- The outer loop of `build_data` over the category listing
(src/build_lists.py:69-109), remote shape: entries whose type is not
`"dir"` are skipped and the files of a category are filtered by
`qualifies_remote` before processing. -/
def runCats (decode : Str → YamlResult) :
    BDState → List CatEntry → Except Unit BDState
  | st, [] => .ok st
  | st, c :: cs =>
    if c.typ = "dir".data then
      match runFiles decode c.name st
          (c.files.filter (fun f => qualifies_remote f.name)) with
      | .error e => .error e
      | .ok st2 => runCats decode st2 cs
    else runCats decode st cs

/-- The flattening of `cat_dict` into `thing_categories`
(src/build_lists.py:111-115): one `{title, category}` record per inner
binding, in the iteration order of the nested dicts. -/
def thing_categories_of (cd : CatDict) : List TCRec :=
  cd.flatMap (fun p => p.2.map (fun q => ⟨q.2.title, p.1⟩))

/-- Embedding of `build_data` (src/build_lists.py:60-120) over an abstract
run input: the category listing, each file carrying the content its fetch
returns.  Yields `(cat_dict, thing_categories, rev_map)`; a raising YAML
decode aborts the run. -/
def build_data (decode : Str → YamlResult) (cats : List CatEntry) :
    Except Unit (CatDict × List TCRec × RevMap) :=
  match runCats decode initBDState cats with
  | .error e => .error e
  | .ok st => .ok (st.cat_dict, thing_categories_of st.cat_dict, st.rev_map)

/-- Result of the generated lookup: JavaScript `null` for a phrase absent
from the reverse map, `undefined` for an out-of-range index, or the found
record. -/
inductive LookupResult where
  | nullv : LookupResult
  | undefv : LookupResult
  | found : TCRec → LookupResult
  deriving DecidableEq

/-- The generated lookup `things(name)` of thingIndex.js
(src/build_lists.py:209-212): lowercase the phrase and resolve it through
the reverse map; `id !== undefined ? thingCategories[id] : null`. -/
def things (tc : List TCRec) (kv : RevMap) (name : Str) : LookupResult :=
  match dlookup kv (pyLower name) with
  | none => .nullv
  | some i =>
    match tc[i]? with
    | some r => .found r
    | none => .undefv

/-- The sequence of (category, slug, record) triples of the qualifying
files of one category, in processing order. -/
def filesTriples (decode : Str → YamlResult) (cat : Str) :
    List FileEntry → Except Unit (List Triple)
  | [] => .ok []
  | f :: fs =>
    match fileTriple decode cat f with
    | .error e => .error e
    | .ok t =>
      match filesTriples decode cat fs with
      | .error e => .error e
      | .ok ts => .ok (t :: ts)

/-- The sequence of triples a whole run processes, in processing order. -/
def catsTriples (decode : Str → YamlResult) :
    List CatEntry → Except Unit (List Triple)
  | [] => .ok []
  | c :: cs =>
    if c.typ = "dir".data then
      match filesTriples decode c.name
          (c.files.filter (fun f => qualifies_remote f.name)) with
      | .error e => .error e
      | .ok ts =>
        match catsTriples decode cs with
        | .error e => .error e
        | .ok ts2 => .ok (ts ++ ts2)
    else catsTriples decode cs

theorem runFiles_eq (decode : Str → YamlResult) (cat : Str) :
    ∀ (fs : List FileEntry) (st : BDState),
    runFiles decode cat st fs =
      (filesTriples decode cat fs).map (fun ts => ts.foldl applyTriple st) := by
  intro fs
  induction fs with
  | nil => intro st; rfl
  | cons f fs ih =>
    intro st
    simp only [runFiles, filesTriples]
    cases fileTriple decode cat f with
    | error e => rfl
    | ok t =>
      cases h2 : filesTriples decode cat fs with
      | error e =>
        have h3 := ih (applyTriple st t)
        rw [h2] at h3
        exact h3
      | ok ts =>
        have h3 := ih (applyTriple st t)
        rw [h2] at h3
        exact h3

theorem runCats_eq (decode : Str → YamlResult) :
    ∀ (cats : List CatEntry) (st : BDState),
    runCats decode st cats =
      (catsTriples decode cats).map (fun ts => ts.foldl applyTriple st) := by
  intro cats
  induction cats with
  | nil => intro st; rfl
  | cons c cs ih =>
    intro st
    simp only [runCats, catsTriples]
    by_cases h : c.typ = "dir".data
    · rw [if_pos h, if_pos h, runFiles_eq]
      cases h2 : filesTriples decode c.name
          (c.files.filter (fun f => qualifies_remote f.name)) with
      | error e => rfl
      | ok ts =>
        have h3 := ih (ts.foldl applyTriple st)
        cases h4 : catsTriples decode cs with
        | error e =>
          rw [h4] at h3
          exact h3
        | ok ts2 =>
          rw [h4] at h3
          have h5 : (Except.ok (List.foldl applyTriple
                (List.foldl applyTriple st ts) ts2) : Except Unit BDState) =
              Except.ok (List.foldl applyTriple st (ts ++ ts2)) := by
            rw [List.foldl_append]
          exact h3.trans h5
    · rw [if_neg h, if_neg h]
      exact ih st

def keyOf (t : Triple) : Str := t.cat ++ ".".data ++ t.slug

theorem foldl_applyTriple_cat_keys :
    ∀ (ts : List Triple) (st : BDState),
    (ts.foldl applyTriple st).cat_keys = st.cat_keys ++ ts.map keyOf := by
  intro ts
  induction ts with
  | nil => intro st; simp
  | cons t ts ih =>
    intro st
    simp only [List.foldl_cons, List.map_cons, ih]
    simp [applyTriple, keyOf]

/-- The reverse-map contents determined by a run's processed triples:
triple number `j` (zero-based, offset by `i`) writes each of its lowercased
items to index `i + j`, later writes overwriting earlier ones. -/
def revOfAux (i : Nat) : List Triple → RevMap → RevMap
  | [], m => m
  | t :: ts, m => revOfAux (i + 1) ts (insItems m t.entry.list i)

theorem foldl_applyTriple_rev_map :
    ∀ (ts : List Triple) (st : BDState),
    (ts.foldl applyTriple st).rev_map =
      revOfAux st.cat_keys.length ts st.rev_map := by
  intro ts
  induction ts with
  | nil => intro st; rfl
  | cons t ts ih =>
    intro st
    simp only [List.foldl_cons, revOfAux]
    rw [ih]
    have h1 : (applyTriple st t).cat_keys.length = st.cat_keys.length + 1 := by
      simp [applyTriple]
    rw [h1]
    rfl

/-- The `cat_dict` contents determined by a run's processed triples. -/
def cdFold (cd : CatDict) (ts : List Triple) : CatDict :=
  ts.foldl (fun cd t => setdefaultInsert cd t.cat t.slug t.entry) cd

theorem foldl_applyTriple_cat_dict :
    ∀ (ts : List Triple) (st : BDState),
    (ts.foldl applyTriple st).cat_dict = cdFold st.cat_dict ts := by
  intro ts
  induction ts with
  | nil => intro st; rfl
  | cons t ts ih =>
    intro st
    simp only [List.foldl_cons]
    rw [ih]
    rfl

theorem dlookup_cons {α : Type} (q : Str × α) (rest : List (Str × α)) (k : Str) :
    dlookup (q :: rest) k = if q.1 = k then some q.2 else dlookup rest k := by
  unfold dlookup
  by_cases h : q.1 = k
  · rw [if_pos h]
    have hf : List.find? (fun p => decide (p.1 = k)) (q :: rest) = some q :=
      List.find?_cons_of_pos _ (by simpa using h)
    rw [hf]
    rfl
  · rw [if_neg h]
    have hf : List.find? (fun p => decide (p.1 = k)) (q :: rest) =
        List.find? (fun p => decide (p.1 = k)) rest :=
      List.find?_cons_of_neg _ (by simpa using h)
    rw [hf]

theorem any_keys_iff {α : Type} (m : List (Str × α)) (k : Str) :
    (m.any (fun p => p.1 = k)) = true ↔ k ∈ m.map Prod.fst := by
  rw [List.any_eq_true]
  constructor
  · rintro ⟨p, hp, he⟩
    exact List.mem_map.mpr ⟨p, hp, of_decide_eq_true he⟩
  · intro hm
    rcases List.mem_map.mp hm with ⟨p, hp, he⟩
    exact ⟨p, hp, decide_eq_true he⟩

theorem dlookup_map_update_self {α : Type} (m : List (Str × α)) (k : Str) (v : α)
    (h : k ∈ m.map Prod.fst) :
    dlookup (m.map (fun p => if p.1 = k then (k, v) else p)) k = some v := by
  induction m with
  | nil => exact absurd h (List.not_mem_nil k)
  | cons p rest ih =>
    simp only [List.map_cons]
    by_cases hp : p.1 = k
    · rw [if_pos hp, dlookup_cons, if_pos rfl]
    · rw [if_neg hp, dlookup_cons, if_neg hp]
      apply ih
      simp only [List.map_cons, List.mem_cons] at h
      rcases h with h | h
      · exact absurd h.symm hp
      · exact h

theorem dlookup_map_update_ne {α : Type} (m : List (Str × α)) (k k2 : Str)
    (v : α) (hne : k2 ≠ k) :
    dlookup (m.map (fun p => if p.1 = k then (k, v) else p)) k2 =
      dlookup m k2 := by
  induction m with
  | nil => rfl
  | cons p rest ih =>
    simp only [List.map_cons]
    by_cases hp : p.1 = k
    · rw [if_pos hp, dlookup_cons, dlookup_cons, if_neg (fun e => hne e.symm),
        if_neg (show ¬ p.1 = k2 from fun e => hne (hp.symm.trans e).symm)]
      exact ih
    · rw [if_neg hp, dlookup_cons, dlookup_cons]
      by_cases hp2 : p.1 = k2
      · rw [if_pos hp2, if_pos hp2]
      · rw [if_neg hp2, if_neg hp2]
        exact ih

theorem dlookup_append_single_self {α : Type} (m : List (Str × α)) (k : Str)
    (v : α) (h : k ∉ m.map Prod.fst) :
    dlookup (m ++ [(k, v)]) k = some v := by
  induction m with
  | nil =>
    rw [List.nil_append, dlookup_cons, if_pos rfl]
  | cons p rest ih =>
    rw [List.cons_append, dlookup_cons]
    have hp : ¬ p.1 = k := by
      intro e
      exact h (List.mem_map.mpr ⟨p, List.mem_cons_self p rest, e⟩)
    rw [if_neg hp]
    apply ih
    intro h2
    exact h (List.mem_cons_of_mem _ h2)

theorem dlookup_append_single_ne {α : Type} (m : List (Str × α)) (k k2 : Str)
    (v : α) (hne : k2 ≠ k) :
    dlookup (m ++ [(k, v)]) k2 = dlookup m k2 := by
  induction m with
  | nil =>
    rw [List.nil_append, dlookup_cons, if_neg (fun e => hne e.symm)]
  | cons p rest ih =>
    rw [List.cons_append, dlookup_cons, dlookup_cons]
    by_cases hp2 : p.1 = k2
    · rw [if_pos hp2, if_pos hp2]
    · rw [if_neg hp2, if_neg hp2]
      exact ih

theorem dlookup_dinsert_self {α : Type} (m : List (Str × α)) (k : Str) (v : α) :
    dlookup (dinsert m k v) k = some v := by
  unfold dinsert
  by_cases h : (m.any (fun p => p.1 = k)) = true
  · rw [if_pos h]
    exact dlookup_map_update_self m k v ((any_keys_iff m k).mp h)
  · rw [if_neg h]
    exact dlookup_append_single_self m k v (fun hm => h ((any_keys_iff m k).mpr hm))

theorem dlookup_dinsert_ne {α : Type} (m : List (Str × α)) (k k2 : Str) (v : α)
    (hne : k2 ≠ k) :
    dlookup (dinsert m k v) k2 = dlookup m k2 := by
  unfold dinsert
  by_cases h : (m.any (fun p => p.1 = k)) = true
  · rw [if_pos h]
    exact dlookup_map_update_ne m k k2 v hne
  · rw [if_neg h]
    exact dlookup_append_single_ne m k k2 v hne

theorem mem_dinsert {α : Type} (m : List (Str × α)) (k : Str) (v : α)
    (q : Str × α) (hq : q ∈ dinsert m k v) : q ∈ m ∨ q = (k, v) := by
  unfold dinsert at hq
  by_cases h : (m.any (fun p => p.1 = k)) = true
  · rw [if_pos h] at hq
    rcases List.mem_map.mp hq with ⟨p, hp, he⟩
    by_cases hpk : p.1 = k
    · rw [if_pos hpk] at he
      right
      exact he.symm
    · rw [if_neg hpk] at he
      left
      exact he ▸ hp
  · rw [if_neg h] at hq
    rcases List.mem_append.mp hq with h2 | h2
    · left
      exact h2
    · right
      exact List.mem_singleton.mp h2

theorem dlookup_insItems (items : List Str) :
    ∀ (m : RevMap) (i : Nat) (ph : Str),
    dlookup (insItems m items i) ph =
      if items.any (fun it => pyLower it = ph) then some i
      else dlookup m ph := by
  induction items with
  | nil =>
    intro m i ph
    simp [insItems]
  | cons it rest ih =>
    intro m i ph
    simp only [insItems, List.foldl_cons]
    rw [show rest.foldl (fun m it => dinsert m (pyLower it) i)
        (dinsert m (pyLower it) i) =
      insItems (dinsert m (pyLower it) i) rest i from rfl]
    rw [ih]
    by_cases hany : (rest.any (fun it => pyLower it = ph)) = true
    · rw [if_pos hany, if_pos]
      simp [List.any_cons, hany]
    · rw [if_neg hany]
      by_cases hit : pyLower it = ph
      · rw [← hit, dlookup_dinsert_self, if_pos]
        simp [List.any_cons]
      · rw [dlookup_dinsert_ne _ _ _ _ (fun e => hit e.symm), if_neg]
        simp only [List.any_cons, Bool.or_eq_true]
        rintro (h | h)
        · exact hit (of_decide_eq_true h)
        · exact hany h

theorem mem_insItems (items : List Str) :
    ∀ (m : RevMap) (i : Nat) (q : Str × Nat),
    q ∈ insItems m items i → q ∈ m ∨ ∃ it ∈ items, q = (pyLower it, i) := by
  induction items with
  | nil =>
    intro m i q hq
    left
    exact hq
  | cons it rest ih =>
    intro m i q hq
    simp only [insItems, List.foldl_cons] at hq
    rcases ih (dinsert m (pyLower it) i) i q hq with h | ⟨it2, hit2, he⟩
    · rcases mem_dinsert _ _ _ _ h with h2 | h2
      · left
        exact h2
      · right
        exact ⟨it, List.mem_cons_self it rest, h2⟩
    · right
      exact ⟨it2, List.mem_cons_of_mem _ hit2, he⟩

/-- Index of the last triple of the list whose items contain an item whose
lowercased form is `ph` (the last writer of the reverse-map binding). -/
def lastHit (ph : Str) : List Triple → Option Nat
  | [] => none
  | t :: ts =>
    match lastHit ph ts with
    | some j => some (j + 1)
    | none =>
      if t.entry.list.any (fun it => pyLower it = ph) then some 0 else none

theorem dlookup_revOfAux (ph : Str) :
    ∀ (ts : List Triple) (i : Nat) (m : RevMap),
    dlookup (revOfAux i ts m) ph =
      match lastHit ph ts with
      | some j => some (i + j)
      | none => dlookup m ph := by
  intro ts
  induction ts with
  | nil =>
    intro i m
    rfl
  | cons t ts ih =>
    intro i m
    simp only [revOfAux, lastHit]
    rw [ih]
    cases hl : lastHit ph ts with
    | some j =>
      simp only [hl]
      congr 1
      omega
    | none =>
      simp only [hl]
      rw [dlookup_insItems]
      by_cases hhit : (t.entry.list.any (fun it => pyLower it = ph)) = true
      · rw [if_pos hhit, if_pos hhit]
        simp
      · rw [if_neg hhit, if_neg hhit]

theorem mem_revOfAux :
    ∀ (ts : List Triple) (i : Nat) (m : RevMap) (q : Str × Nat),
    q ∈ revOfAux i ts m →
      q ∈ m ∨ ∃ j t, ts[j]? = some t ∧ q.2 = i + j ∧
        ∃ it ∈ t.entry.list, pyLower it = q.1 := by
  intro ts
  induction ts with
  | nil =>
    intro i m q hq
    left
    exact hq
  | cons t ts ih =>
    intro i m q hq
    simp only [revOfAux] at hq
    rcases ih (i + 1) _ q hq with h | ⟨j, t2, hj, he, hit⟩
    · rcases mem_insItems _ _ _ _ h with h2 | ⟨it, hitm, he2⟩
      · left
        exact h2
      · right
        refine ⟨0, t, by simp, ?_, ?_⟩
        · rw [he2]
          simp
        · rw [he2]
          exact ⟨it, hitm, rfl⟩
    · right
      refine ⟨j + 1, t2, by simpa using hj, by omega, hit⟩

theorem lastHit_some (ph : Str) :
    ∀ (ts : List Triple) (j : Nat), lastHit ph ts = some j →
      ∃ t, ts[j]? = some t ∧ ∃ it ∈ t.entry.list, pyLower it = ph := by
  intro ts
  induction ts with
  | nil =>
    intro j h
    exact absurd h (by simp [lastHit])
  | cons t ts ih =>
    intro j h
    simp only [lastHit] at h
    cases hl : lastHit ph ts with
    | some j2 =>
      rw [hl] at h
      have h2 : j2 + 1 = j := Option.some.inj h
      rcases ih j2 hl with ⟨t2, hj2, hit⟩
      refine ⟨t2, ?_, hit⟩
      rw [← h2]
      simpa using hj2
    | none =>
      rw [hl] at h
      by_cases hhit : (t.entry.list.any (fun it => pyLower it = ph)) = true
      · rw [if_pos hhit] at h
        have h2 : 0 = j := Option.some.inj h
        subst h2
        refine ⟨t, by simp, ?_⟩
        rcases List.any_eq_true.mp hhit with ⟨it, hitm, he⟩
        exact ⟨it, hitm, of_decide_eq_true he⟩
      · rw [if_neg hhit] at h
        exact absurd h (by simp)

theorem setdefaultInsert_fresh (cd : CatDict) (cat slug : Str) (r : ListRec)
    (hcd : cat ∉ cd.map Prod.fst) :
    setdefaultInsert cd cat slug r = cd ++ [(cat, [(slug, r)])] := by
  unfold setdefaultInsert
  rw [if_neg]
  intro h
  exact hcd ((any_keys_iff cd cat).mp h)

theorem setdefaultInsert_last (cd : CatDict) (cat : Str)
    (subs : List (Str × ListRec)) (slug : Str) (r : ListRec)
    (hcd : cat ∉ cd.map Prod.fst) :
    setdefaultInsert (cd ++ [(cat, subs)]) cat slug r =
      cd ++ [(cat, dinsert subs slug r)] := by
  unfold setdefaultInsert
  rw [if_pos]
  · rw [List.map_append]
    congr 1
    · have hid : ∀ p ∈ cd,
          (if p.1 = cat then (cat, dinsert p.2 slug r) else p) = p := by
        intro p hp
        rw [if_neg]
        intro e
        exact hcd (List.mem_map.mpr ⟨p, hp, e⟩)
      rw [List.map_congr_left hid, List.map_id']
    · simp
  · rw [List.any_eq_true]
    exact ⟨(cat, subs), by simp, by simp⟩

theorem cdFold_block :
    ∀ (ts : List Triple) (cd : CatDict) (cat : Str)
      (subs : List (Str × ListRec)),
    cat ∉ cd.map Prod.fst →
    (∀ t ∈ ts, t.cat = cat) →
    (ts.map (fun t => t.slug)).Nodup →
    (∀ t ∈ ts, t.slug ∉ subs.map Prod.fst) →
    cdFold (cd ++ [(cat, subs)]) ts =
      cd ++ [(cat, subs ++ ts.map (fun t => (t.slug, t.entry)))] := by
  intro ts
  induction ts with
  | nil =>
    intro cd cat subs _ _ _ _
    simp [cdFold]
  | cons t ts ih =>
    intro cd cat subs hcd hcat hnd hfresh
    have htcat : t.cat = cat := hcat t (List.mem_cons_self t ts)
    simp only [cdFold, List.foldl_cons]
    rw [htcat, setdefaultInsert_last cd cat subs t.slug t.entry hcd,
      dinsert_fresh subs t.slug t.entry (hfresh t (List.mem_cons_self t ts))]
    have hnd2 : (ts.map (fun t => t.slug)).Nodup := by
      simp only [List.map_cons, List.nodup_cons] at hnd
      exact hnd.2
    have hhd : t.slug ∉ ts.map (fun t => t.slug) := by
      simp only [List.map_cons, List.nodup_cons] at hnd
      exact hnd.1
    have hfresh2 : ∀ t2 ∈ ts, t2.slug ∉
        (subs ++ [(t.slug, t.entry)]).map Prod.fst := by
      intro t2 ht2
      simp only [List.map_append, List.mem_append, List.map_cons, List.map_nil,
        List.mem_singleton, not_or]
      constructor
      · exact hfresh t2 (List.mem_cons_of_mem _ ht2)
      · intro e
        exact hhd (e ▸ List.mem_map.mpr ⟨t2, ht2, rfl⟩)
    have := ih cd cat (subs ++ [(t.slug, t.entry)]) hcd
      (fun x hx => hcat x (List.mem_cons_of_mem _ hx)) hnd2 hfresh2
    rw [show cdFold (cd ++ [(cat, subs ++ [(t.slug, t.entry)])]) ts =
        ts.foldl (fun cd t => setdefaultInsert cd t.cat t.slug t.entry)
          (cd ++ [(cat, subs ++ [(t.slug, t.entry)])]) from rfl] at this
    rw [this]
    simp

theorem cdFold_newblock (ts : List Triple) (cd : CatDict) (cat : Str)
    (hcd : cat ∉ cd.map Prod.fst)
    (hcat : ∀ t ∈ ts, t.cat = cat)
    (hnd : (ts.map (fun t => t.slug)).Nodup) :
    cdFold cd ts =
      cd ++ (if ts.isEmpty then []
        else [(cat, ts.map (fun t => (t.slug, t.entry)))]) := by
  cases ts with
  | nil => simp [cdFold]
  | cons t ts2 =>
    have htcat : t.cat = cat := hcat t (List.mem_cons_self t ts2)
    simp only [List.isEmpty_cons, Bool.false_eq_true, if_false]
    simp only [cdFold, List.foldl_cons]
    rw [htcat, setdefaultInsert_fresh cd cat t.slug t.entry hcd]
    have hnd2 : (ts2.map (fun t => t.slug)).Nodup := by
      simp only [List.map_cons, List.nodup_cons] at hnd
      exact hnd.2
    have hhd : t.slug ∉ ts2.map (fun t => t.slug) := by
      simp only [List.map_cons, List.nodup_cons] at hnd
      exact hnd.1
    have hfresh : ∀ t2 ∈ ts2, t2.slug ∉
        ([(t.slug, t.entry)] : List (Str × ListRec)).map Prod.fst := by
      intro t2 ht2
      simp only [List.map_cons, List.map_nil, List.mem_singleton]
      intro e
      exact hhd (e ▸ List.mem_map.mpr ⟨t2, ht2, rfl⟩)
    have := cdFold_block ts2 cd cat [(t.slug, t.entry)] hcd
      (fun x hx => hcat x (List.mem_cons_of_mem _ hx)) hnd2 hfresh
    rw [show cdFold (cd ++ [(cat, [(t.slug, t.entry)])]) ts2 =
        ts2.foldl (fun cd t => setdefaultInsert cd t.cat t.slug t.entry)
          (cd ++ [(cat, [(t.slug, t.entry)])]) from rfl] at this
    rw [this]
    simp

theorem thing_categories_of_append (cd1 cd2 : CatDict) :
    thing_categories_of (cd1 ++ cd2) =
      thing_categories_of cd1 ++ thing_categories_of cd2 := by
  unfold thing_categories_of
  rw [List.flatMap_append]

theorem fileTriple_cat (decode : Str → YamlResult) (cat : Str) (f : FileEntry)
    (t : Triple) (h : fileTriple decode cat f = .ok t) : t.cat = cat := by
  unfold fileTriple at h
  cases hp : parse_front_matter_string decode f.content with
  | error e =>
    rw [hp] at h
    exact absurd h (by simp)
  | ok mb =>
    rw [hp] at h
    have h2 := Except.ok.inj h
    rw [← h2]

theorem filesTriples_cat (decode : Str → YamlResult) (cat : Str) :
    ∀ (fs : List FileEntry) (ts : List Triple),
    filesTriples decode cat fs = .ok ts → ∀ t ∈ ts, t.cat = cat := by
  intro fs
  induction fs with
  | nil =>
    intro ts h t ht
    have h2 : ([] : List Triple) = ts := Except.ok.inj h
    rw [← h2] at ht
    exact absurd ht (List.not_mem_nil t)
  | cons f fs ih =>
    intro ts h t ht
    simp only [filesTriples] at h
    cases hf : fileTriple decode cat f with
    | error e =>
      rw [hf] at h
      exact absurd h (by simp)
    | ok t2 =>
      rw [hf] at h
      cases hrest : filesTriples decode cat fs with
      | error e =>
        rw [hrest] at h
        exact absurd h (by simp)
      | ok ts2 =>
        rw [hrest] at h
        have h2 : t2 :: ts2 = ts := Except.ok.inj h
        rw [← h2] at ht
        rcases List.mem_cons.mp ht with rfl | ht2
        · exact fileTriple_cat decode cat f t hf
        · exact ih ts2 hrest t ht2

/-- The names of the real (dir-typed) categories of a listing, in order. -/
def dirNames (cats : List CatEntry) : List Str :=
  (cats.filter (fun c => c.typ = "dir".data)).map (fun c => c.name)

theorem dirNames_cons_dir (c : CatEntry) (cs : List CatEntry)
    (h : c.typ = "dir".data) :
    dirNames (c :: cs) = c.name :: dirNames cs := by
  unfold dirNames
  rw [List.filter_cons_of_pos (by simpa using h), List.map_cons]

theorem dirNames_cons_nondir (c : CatEntry) (cs : List CatEntry)
    (h : ¬ c.typ = "dir".data) :
    dirNames (c :: cs) = dirNames cs := by
  unfold dirNames
  rw [List.filter_cons_of_neg (by simpa using h)]

theorem pairs_nodup_slugs (ts : List Triple) (cat : Str)
    (hcat : ∀ t ∈ ts, t.cat = cat)
    (hnd : (ts.map (fun t => (t.cat, t.slug))).Nodup) :
    (ts.map (fun t => t.slug)).Nodup := by
  have he : ts.map (fun t => (t.cat, t.slug)) =
      (ts.map (fun t => t.slug)).map (fun s => (cat, s)) := by
    rw [List.map_map]
    apply List.map_congr_left
    intro t ht
    simp [hcat t ht]
  rw [he] at hnd
  exact List.Nodup.of_map _ hnd

/-- The central alignment of the run: with distinct dir-category names (a
directory listing never repeats a name) and globally unique (category, slug)
pairs, the flattening of the built `cat_dict` lists exactly the processed
triples' `{title, category}` records, in processing order; and the keys of
the built `cat_dict` stay among the seen names. -/
theorem cdFold_cats (decode : Str → YamlResult) :
    ∀ (cats : List CatEntry) (P : List Triple),
    catsTriples decode cats = .ok P →
    (dirNames cats).Nodup →
    (P.map (fun t => (t.cat, t.slug))).Nodup →
    ∀ cd : CatDict,
    (∀ n ∈ dirNames cats, n ∉ cd.map Prod.fst) →
    thing_categories_of (cdFold cd P) =
      thing_categories_of cd ++
        P.map (fun t => TCRec.mk t.entry.title t.cat) ∧
    (∀ n ∈ (cdFold cd P).map Prod.fst,
      n ∈ cd.map Prod.fst ∨ n ∈ dirNames cats) := by
  intro cats
  induction cats with
  | nil =>
    intro P h _ _ cd _
    have h2 : ([] : List Triple) = P := Except.ok.inj h
    rw [← h2]
    constructor
    · simp [cdFold]
    · intro n hn
      left
      simpa [cdFold] using hn
  | cons c cs ih =>
    intro P h hnames hpairs cd hfresh
    simp only [catsTriples] at h
    by_cases hdir : c.typ = "dir".data
    · rw [if_pos hdir] at h
      rw [dirNames_cons_dir c cs hdir] at hnames hfresh
      rw [dirNames_cons_dir c cs hdir]
      cases hts : filesTriples decode c.name
          (c.files.filter (fun f => qualifies_remote f.name)) with
      | error e =>
        rw [hts] at h
        exact absurd h (by simp)
      | ok ts =>
        rw [hts] at h
        cases hP2 : catsTriples decode cs with
        | error e =>
          rw [hP2] at h
          exact absurd h (by simp)
        | ok P2 =>
          rw [hP2] at h
          have hsplit : ts ++ P2 = P := Except.ok.inj h
          subst hsplit
          have hcat : ∀ t ∈ ts, t.cat = c.name :=
            filesTriples_cat decode c.name _ ts hts
          have hndnames : (dirNames cs).Nodup := (List.nodup_cons.mp hnames).2
          have hcnew : c.name ∉ dirNames cs := (List.nodup_cons.mp hnames).1
          have hpairs1 : (ts.map (fun t => (t.cat, t.slug))).Nodup := by
            rw [List.map_append] at hpairs
            exact hpairs.of_append_left
          have hpairs2 : (P2.map (fun t => (t.cat, t.slug))).Nodup := by
            rw [List.map_append] at hpairs
            exact hpairs.of_append_right
          have hslugs : (ts.map (fun t => t.slug)).Nodup :=
            pairs_nodup_slugs ts c.name hcat hpairs1
          have hcdc : c.name ∉ cd.map Prod.fst :=
            hfresh c.name (List.mem_cons_self _ _)
          have hblock := cdFold_newblock ts cd c.name hcdc hcat hslugs
          have hfold : cdFold cd (ts ++ P2) = cdFold (cdFold cd ts) P2 := by
            unfold cdFold
            rw [List.foldl_append]
          set B : CatDict := if ts.isEmpty then []
            else [(c.name, ts.map (fun t => (t.slug, t.entry)))] with hB
          have hkeysB : ∀ n ∈ B.map Prod.fst, n = c.name := by
            intro n hn
            rw [hB] at hn
            by_cases he : ts.isEmpty
            · rw [if_pos he] at hn
              exact absurd hn (List.not_mem_nil n)
            · rw [if_neg he] at hn
              simpa using hn
          have hfresh2 : ∀ n ∈ dirNames cs,
              n ∉ (cd ++ B).map Prod.fst := by
            intro n hn
            rw [List.map_append, List.mem_append]
            rintro (h2 | h2)
            · exact hfresh n (List.mem_cons_of_mem _ hn) h2
            · exact hcnew ((hkeysB n h2) ▸ hn)
          have hih := ih P2 hP2 hndnames hpairs2 (cd ++ B) hfresh2
          have hflatB : thing_categories_of B =
              ts.map (fun t => TCRec.mk t.entry.title t.cat) := by
            rw [hB]
            by_cases he : ts.isEmpty
            · rw [if_pos he]
              have : ts = [] := List.isEmpty_iff.mp he
              rw [this]
              rfl
            · rw [if_neg he]
              unfold thing_categories_of
              simp only [List.flatMap_cons, List.flatMap_nil, List.append_nil,
                List.map_map]
              apply List.map_congr_left
              intro t ht
              simp [Function.comp, hcat t ht]
          constructor
          · rw [hfold, hblock, hih.1, thing_categories_of_append, hflatB,
              List.map_append, List.append_assoc]
          · intro n hn
            rw [hfold, hblock] at hn
            rcases hih.2 n hn with h2 | h2
            · rw [List.map_append, List.mem_append] at h2
              rcases h2 with h3 | h3
              · left
                exact h3
              · right
                exact (hkeysB n h3) ▸ List.mem_cons_self _ _
            · right
              exact List.mem_cons_of_mem _ h2
    · rw [if_neg hdir] at h
      rw [dirNames_cons_nondir c cs hdir] at hnames hfresh
      rw [dirNames_cons_nondir c cs hdir]
      exact ih P h hnames hpairs cd hfresh

theorem build_data_ok (decode : Str → YamlResult) (cats : List CatEntry)
    (cd : CatDict) (tc : List TCRec) (kv : RevMap) (P : List Triple)
    (hrun : build_data decode cats = .ok (cd, tc, kv))
    (hP : catsTriples decode cats = .ok P) :
    cd = cdFold [] P ∧ tc = thing_categories_of (cdFold [] P) ∧
      kv = revOfAux 0 P [] := by
  unfold build_data at hrun
  rw [runCats_eq decode cats initBDState, hP] at hrun
  have h1 : ((P.foldl applyTriple initBDState).cat_dict,
      thing_categories_of (P.foldl applyTriple initBDState).cat_dict,
      (P.foldl applyTriple initBDState).rev_map) =
      (cd, tc, kv) := Except.ok.inj hrun
  have hcd := congrArg (fun x => x.1) h1
  have htc := congrArg (fun x => x.2.1) h1
  have hkv := congrArg (fun x => x.2.2) h1
  simp only at hcd htc hkv
  have hd : (P.foldl applyTriple initBDState).cat_dict = cdFold [] P :=
    foldl_applyTriple_cat_dict P initBDState
  have hr : (P.foldl applyTriple initBDState).rev_map = revOfAux 0 P [] :=
    foldl_applyTriple_rev_map P initBDState
  refine ⟨?_, ?_, ?_⟩
  · rw [← hcd, hd]
  · rw [← htc, hd]
  · rw [← hkv, hr]

/-- C10: invariant of the list builder.  In every run whose processed
(category, slug) pairs are pairwise distinct — and whose dir-category names
are distinct, as the names of any directory or API listing are — every
integer value stored in the reverse map is a valid index into the flattened
`thing_categories` array (strictly less than its length), and the record at
that index is the `{title, category}` record of the processed list whose
items produced the binding; the generated lookup hence never reads past the
end of the flattened array. -/
theorem c10_revmap_index_invariant (decode : Str → YamlResult)
    (cats : List CatEntry) (cd : CatDict) (tc : List TCRec) (kv : RevMap)
    (P : List Triple)
    (hrun : build_data decode cats = .ok (cd, tc, kv))
    (hP : catsTriples decode cats = .ok P)
    (hnames : (dirNames cats).Nodup)
    (hpairs : (P.map (fun t => (t.cat, t.slug))).Nodup) :
    ∀ ph i, (ph, i) ∈ kv →
      i < tc.length ∧ ∃ t, P[i]? = some t ∧
        (∃ it ∈ t.entry.list, pyLower it = ph) ∧
        tc[i]? = some (TCRec.mk t.entry.title t.cat) := by
  obtain ⟨hcd, htc, hkv⟩ := build_data_ok decode cats cd tc kv P hrun hP
  have hflat := (cdFold_cats decode cats P hP hnames hpairs []
    (fun n _ => List.not_mem_nil n)).1
  have htc2 : tc = P.map (fun t => TCRec.mk t.entry.title t.cat) := by
    rw [htc, hflat]
    rfl
  intro ph i hmem
  rw [hkv] at hmem
  rcases mem_revOfAux P 0 [] (ph, i) hmem with h | ⟨j, t, hj, he, it, hitm, hlow⟩
  · exact absurd h (List.not_mem_nil _)
  · have hij : i = j := by simpa using he
    subst hij
    have hlen : i < P.length := by
      rcases List.getElem?_eq_some.mp hj with ⟨hlt, _⟩
      exact hlt
    refine ⟨?_, t, hj, ⟨it, hitm, hlow⟩, ?_⟩
    · rw [htc2, List.length_map]
      exact hlen
    · rw [htc2, List.getElem?_map, hj]
      rfl

/-- C1 as amended: in a run with distinct dir-category names and distinct
(category, slug) pairs, the generated lookup applied to a phrase in any
letter case resolves to the `{title, category}` record of the LAST processed
list containing an item whose lowercased form equals the lowercased phrase
(the reverse map is last-writer-wins), and returns the null sentinel exactly
for the phrases no processed list contains. -/
theorem c1_lookup_resolves_last_writer (decode : Str → YamlResult)
    (cats : List CatEntry) (cd : CatDict) (tc : List TCRec) (kv : RevMap)
    (P : List Triple) (q : Str)
    (hrun : build_data decode cats = .ok (cd, tc, kv))
    (hP : catsTriples decode cats = .ok P)
    (hnames : (dirNames cats).Nodup)
    (hpairs : (P.map (fun t => (t.cat, t.slug))).Nodup) :
    (∀ j, lastHit (pyLower q) P = some j →
      ∃ t, P[j]? = some t ∧
        things tc kv q = .found (TCRec.mk t.entry.title t.cat)) ∧
    (lastHit (pyLower q) P = none → things tc kv q = .nullv) := by
  obtain ⟨hcd, htc, hkv⟩ := build_data_ok decode cats cd tc kv P hrun hP
  have hflat := (cdFold_cats decode cats P hP hnames hpairs []
    (fun n _ => List.not_mem_nil n)).1
  have htc2 : tc = P.map (fun t => TCRec.mk t.entry.title t.cat) := by
    rw [htc, hflat]
    rfl
  have hdl : dlookup kv (pyLower q) =
      match lastHit (pyLower q) P with
      | some j => some (0 + j)
      | none => dlookup ([] : RevMap) (pyLower q) := by
    rw [hkv]
    exact dlookup_revOfAux (pyLower q) P 0 []
  constructor
  · intro j hj
    rcases lastHit_some (pyLower q) P j hj with ⟨t, hjt, hit⟩
    refine ⟨t, hjt, ?_⟩
    have hstep : things tc kv q =
        match tc[j]? with
        | some r => .found r
        | none => .undefv := by
      unfold things
      rw [hdl, hj]
      simp only [Nat.zero_add]
    rw [hstep, htc2, List.getElem?_map, hjt]
    rfl
  · intro hnone
    unfold things
    rw [hdl, hnone]
    rfl

/-- Guide instance search for the run-result tuple, so concrete runs of
`build_data` can be evaluated by `decide`. -/
instance : DecidableEq (CatDict × List TCRec × RevMap) := instDecidableEqProd

/-- A decoder standing for `yaml.safe_load` on an empty document; the
concrete run inputs below carry no front matter, so the decoder is never
reached. -/
def decodeE : Str → YamlResult := fun _ => YamlResult.empty

/-- A concrete run input with two categories, `C` and `D`, whose files
`s.yml` and `t.yml` both contain the single item line `Foo Bar`. -/
def catsCD : List CatEntry :=
  [⟨"dir".data, "C".data, [⟨"s.yml".data, "Foo Bar".data⟩]⟩,
   ⟨"dir".data, "D".data, [⟨"t.yml".data, "Foo Bar".data⟩]⟩]

def recSC : ListRec := ⟨"s".data, "C".data, ["Foo Bar".data]⟩

def recTD : ListRec := ⟨"t".data, "D".data, ["Foo Bar".data]⟩

def cdCD : CatDict :=
  [("C".data, [("s".data, recSC)]), ("D".data, [("t".data, recTD)])]

def tcCD : List TCRec := [⟨"s".data, "C".data⟩, ⟨"t".data, "D".data⟩]

def kvCD : RevMap := [("foo bar".data, 1)]

def PCD : List Triple :=
  [⟨"C".data, "s".data, recSC⟩, ⟨"D".data, "t".data, recTD⟩]

/-- Counterexample to C1 as stated: in the run `catsCD` the processed file
`s.yml` of category `"C"` with slug `"s"` contains the item line `Foo Bar`,
yet the generated lookup of `"foo bar"` returns the record of category
`"D"` — the reverse map is last-writer-wins, so the lookup does not return
the record of (the first) list that contained the item. -/
theorem c1_lookup_counterexample :
    catsTriples decodeE catsCD = .ok PCD ∧
    PCD[0]? = some ⟨"C".data, "s".data, recSC⟩ ∧
    build_data decodeE catsCD = .ok (cdCD, tcCD, kvCD) ∧
    things tcCD kvCD ("foo bar".data) = .found (TCRec.mk "t".data "D".data) ∧
    (TCRec.mk "t".data "D".data).category ≠ "C".data := by
  refine ⟨by decide, by decide, by decide, by decide, by decide⟩

/-- Witness for C10 at the concrete run `catsCD` and the reverse-map entry
`("foo bar", 1)`: the index is within bounds and points at the record of the
processed list whose items produced the binding. -/
theorem c10_revmap_index_invariant_witness :
    1 < tcCD.length ∧ ∃ t, PCD[1]? = some t ∧
      (∃ it ∈ t.entry.list, pyLower it = "foo bar".data) ∧
      tcCD[1]? = some (TCRec.mk t.entry.title t.cat) := by
  have h := c10_revmap_index_invariant decodeE catsCD cdCD tcCD kvCD PCD
    (by decide) (by decide) (by decide) (by decide)
  exact h ("foo bar".data) 1 (by decide)

/-- A concrete run input with the single category `C` whose file `s.yml`
contains the single item line `Foo Bar`. -/
def catsC1 : List CatEntry :=
  [⟨"dir".data, "C".data, [⟨"s.yml".data, "Foo Bar".data⟩]⟩]

def cdC1 : CatDict := [("C".data, [("s".data, recSC)])]

def tcC1 : List TCRec := [⟨"s".data, "C".data⟩]

def kvC1 : RevMap := [("foo bar".data, 0)]

def PC1 : List Triple := [⟨"C".data, "s".data, recSC⟩]

/-- Witness for C1 amended at the concrete run `catsC1`: looking up
`"FOO Bar"` (a different letter case) resolves to the record
`{title: "s", category: "C"}` of the list that contained the item. -/
theorem c1_lookup_resolves_last_writer_witness :
    things tcC1 kvC1 ("FOO Bar".data) =
      .found (TCRec.mk "s".data "C".data) := by
  have h := c1_lookup_resolves_last_writer decodeE catsC1 cdC1 tcC1 kvC1 PC1
    ("FOO Bar".data) (by decide) (by decide) (by decide) (by decide)
  rcases h.1 0 (by decide) with ⟨t, ht, hth⟩
  have ht2 : t = ⟨"C".data, "s".data, recSC⟩ := by
    rw [show PC1[0]? = some ⟨"C".data, "s".data, recSC⟩ from by decide] at ht
    exact (Option.some.inj ht).symm
  rw [hth, ht2]
  rfl
